import Mathlib

/-!
# EnhanceMD core pipeline — verification development

Shallow embedding of the EnhanceMD document transformation pipeline:

* the variable/template expansion engine (`processTemplate`,
  `src/client/src/hooks/useVariables.ts`),
* the smart-component scanner and placeholder rewriter
  (`useSmartComponents`/`transformMarkdown`,
  `src/client/src/hooks/useSmartComponents.tsx`),
* the image intake and path-variant index (`convertImageToBase64`,
  `generatePathVariations`, `processMarkdownImages` from the image utility
  module, and the upload batch loop of
  `src/client/src/store/exportHistoryStore.ts`),
* the progress-bar renderer's clamping (`ProgressBar`,
  `src/client/src/components/SmartComponents.tsx`).

Text is modelled as `List Char` (JavaScript strings), with `String`
wrappers at the API surface.  JavaScript's global lazy-regex
replacement (`str.replace(/open([\s\S]*?)close/g, f)`) is modelled by
`replaceBlocks`: repeatedly find the first occurrence of the opening
tag, then the first occurrence of the closing tag after it, replace the
whole span, and continue scanning after the span.  Replacement of a
plain global pattern (`str.replace(/pat/g, r)`) is `replaceAll`:
find/replace left to right, never rescanning emitted replacement text.
Variable names are treated as literal text inside the patterns the code
builds from them (the source interpolates names into regexes without
escaping; the claims under study only concern identifier-like names),
and replacement strings are treated literally (JavaScript `$`-escape
sequences in replacement strings are outside the scope of the claims).
-/

/-- Whitespace as JavaScript `\s` / `String.prototype.trim` sees it,
restricted to the ASCII whitespace the pipeline's inputs use. -/
def jsWs (c : Char) : Bool :=
  c = ' ' || c = '\t' || c = '\n' || c = '\r'

/-- JavaScript `String.prototype.trim`: drop whitespace at both ends. -/
def trimWs (l : List Char) : List Char :=
  ((l.dropWhile jsWs).reverse.dropWhile jsWs).reverse

/-- Split `s` at the first occurrence of `pat`:
`splitFirst pat s = some (a, b)` iff `s = a ++ pat ++ b` with the
occurrence of `pat` at `a.length` being the leftmost one. -/
def splitFirst (pat : List Char) : List Char → Option (List Char × List Char)
  | [] => if pat.isPrefixOf [] then some ([], []) else none
  | c :: cs =>
    if pat.isPrefixOf (c :: cs) then some ([], (c :: cs).drop pat.length)
    else (splitFirst pat cs).map (fun p => (c :: p.1, p.2))

/-- One global regex replacement `s.replace(/pat/g, rep)` for a literal
pattern: scan left to right, replace every occurrence, continue after
each replacement.  Fuelled for structural termination; the wrapper
supplies `s.length + 1` fuel, enough because every step consumes at
least one input character (`pat` is nonempty for every pattern the
pipeline builds). -/
def replaceAllGo (pat rep : List Char) : Nat → List Char → List Char
  | 0, s => s
  | _ + 1, [] => []
  | fuel + 1, s@(c :: cs) =>
    if pat.isPrefixOf s ∧ pat ≠ [] then
      rep ++ replaceAllGo pat rep fuel (s.drop pat.length)
    else
      c :: replaceAllGo pat rep fuel cs

/-- JavaScript `s.replace(new RegExp(pat, 'g'), rep)` with `pat` literal. -/
def replaceAll (pat rep s : List Char) : List Char :=
  replaceAllGo pat rep (s.length + 1) s

/-- JavaScript `s.replace(/open([\s\S]*?)close/g, m => f (captured m))`:
find the first occurrence of `open`, then the first occurrence of
`close` after it (the lazy `*?` stops at the earliest close); replace
the whole span by `f` of the captured middle and continue after it.  If
an opening tag has no closing tag anywhere after it, nothing past that
point can match, so the remaining text is returned unchanged. -/
def replaceBlocksGo (op cl : List Char) (f : List Char → List Char) :
    Nat → List Char → List Char
  | 0, s => s
  | fuel + 1, s =>
    match splitFirst op s with
    | none => s
    | some (pre, tail) =>
      match splitFirst cl tail with
      | none => s
      | some (mid, rest) => pre ++ f mid ++ replaceBlocksGo op cl f fuel rest

/-- Wrapper for `replaceBlocksGo` with enough fuel. -/
def replaceBlocks (op cl : List Char) (f : List Char → List Char)
    (s : List Char) : List Char :=
  replaceBlocksGo op cl f (s.length + 1) s

/-- `s.replace(pat, rep)` with a *string* first argument: replace only
the first occurrence (used by the placeholder rewriter and the image
reference substitution). -/
def replaceFirst (pat rep s : List Char) : List Char :=
  match splitFirst pat s with
  | none => s
  | some (a, b) => a ++ rep ++ b

section SplitFirstLemmas

theorem splitFirst_cons (pat : List Char) (c : Char) (cs : List Char) :
    splitFirst pat (c :: cs)
      = if pat.isPrefixOf (c :: cs) then some ([], (c :: cs).drop pat.length)
        else (splitFirst pat cs).map (fun p => (c :: p.1, p.2)) := rfl

theorem splitFirst_spec {pat s a b : List Char}
    (h : splitFirst pat s = some (a, b)) : s = a ++ pat ++ b := by
  induction s generalizing a b with
  | nil =>
    rw [splitFirst] at h
    by_cases hp : pat.isPrefixOf ([] : List Char)
    · simp only [hp, if_true, Option.some.injEq, Prod.mk.injEq] at h
      have hpx : pat <+: ([] : List Char) := List.isPrefixOf_iff_prefix.mp hp
      have : pat = [] := List.prefix_nil.mp hpx
      simp [this, ← h.1, ← h.2]
    · simp [hp] at h
  | cons c cs ih =>
    rw [splitFirst_cons] at h
    by_cases hp : pat.isPrefixOf (c :: cs)
    · simp only [hp, if_true, Option.some.injEq, Prod.mk.injEq] at h
      have hpx : pat <+: (c :: cs) := List.isPrefixOf_iff_prefix.mp hp
      obtain ⟨t, ht⟩ := hpx
      rw [← h.1, ← h.2, ← ht]
      simp [List.drop_left]
    · rw [if_neg hp] at h
      cases hsp : splitFirst pat cs with
      | none => rw [hsp] at h; simp at h
      | some p =>
        rw [hsp] at h
        simp only [Option.map_some', Option.some.injEq, Prod.mk.injEq] at h
        have := ih (a := p.1) (b := p.2) (by simp [hsp])
        rw [← h.1, ← h.2]
        simp [this]

theorem splitFirst_none_of_absent {pat s : List Char}
    (h : ¬ pat <:+: s) : splitFirst pat s = none := by
  induction s with
  | nil =>
    rw [splitFirst]
    have hp : ¬ pat.isPrefixOf ([] : List Char) := by
      intro hc
      exact h (List.isPrefixOf_iff_prefix.mp hc).isInfix
    simp [hp]
  | cons c cs ih =>
    rw [splitFirst_cons]
    have hp : ¬ pat.isPrefixOf (c :: cs) := by
      intro hc
      exact h (List.isPrefixOf_iff_prefix.mp hc).isInfix
    have hcs : ¬ pat <:+: cs := by
      intro hc
      exact h (hc.trans (List.suffix_cons c cs).isInfix)
    simp [hp, ih hcs]

/-- If `pat` does not occur anywhere strictly before the aligned
occurrence (no occurrence fits inside `a ++ pat.dropLast`), then the
first occurrence of `pat` in `a ++ pat ++ b` is exactly at `a.length`. -/
theorem splitFirst_append {pat : List Char} (a b : List Char)
    (hne : pat ≠ [])
    (H : ¬ pat <:+: (a ++ pat.dropLast)) :
    splitFirst pat (a ++ pat ++ b) = some (a, b) := by
  induction a with
  | nil =>
    obtain ⟨p, ps, hps⟩ : ∃ p ps, pat = p :: ps := by
      cases pat with
      | nil => exact absurd rfl hne
      | cons p ps => exact ⟨p, ps, rfl⟩
    subst hps
    simp only [List.nil_append, List.cons_append]
    rw [splitFirst_cons]
    have hp : (p :: ps).isPrefixOf (p :: (ps ++ b)) :=
      List.isPrefixOf_iff_prefix.mpr (List.prefix_append (p :: ps) b)
    rw [if_pos hp]
    have hdrop : (p :: (ps ++ b)).drop (p :: ps).length = b :=
      List.drop_left (p :: ps) b
    rw [hdrop]
  | cons c a ih =>
    have hlen : pat.length ≤ (c :: (a ++ pat.dropLast)).length := by
      have h1 : 1 ≤ pat.length := by
        cases pat with
        | nil => exact absurd rfl hne
        | cons x xs => simp
      simp [List.length_dropLast]
      omega
    have hp : ¬ pat.isPrefixOf (c :: (a ++ pat ++ b)) := by
      intro hc
      have hpx : pat <+: (c :: (a ++ pat ++ b)) :=
        List.isPrefixOf_iff_prefix.mp hc
      apply H
      have heq : pat = (c :: (a ++ pat ++ b)).take pat.length :=
        List.prefix_iff_eq_take.mp hpx
      have harr : c :: (a ++ pat ++ b)
          = (c :: (a ++ pat.dropLast)) ++ (pat.getLast hne :: b) := by
        have hsplit : pat = pat.dropLast ++ [pat.getLast hne] := by
          simp [List.dropLast_append_getLast hne]
        conv_lhs => rw [hsplit]
        simp
      have htake : (c :: (a ++ pat ++ b)).take pat.length
          = (c :: (a ++ pat.dropLast)).take pat.length := by
        rw [harr]
        exact List.take_append_of_le_length hlen
      have hfix : pat <+: (c :: (a ++ pat.dropLast)) :=
        List.prefix_iff_eq_take.mpr (heq.trans htake)
      simpa using hfix.isInfix
    have Ha : ¬ pat <:+: (a ++ pat.dropLast) := by
      intro hc
      apply H
      exact hc.trans (List.suffix_cons c _).isInfix
    have hgoal : splitFirst pat (c :: (a ++ pat ++ b)) = some (c :: a, b) := by
      rw [splitFirst_cons, if_neg hp, ih Ha]
      rfl
    simpa using hgoal

end SplitFirstLemmas

section RewriteLemmas

theorem splitFirst_nil {pat : List Char} (h : pat ≠ []) :
    splitFirst pat [] = none := by
  cases pat with
  | nil => exact absurd rfl h
  | cons p ps => rfl

theorem replaceAllGo_id {pat rep s : List Char} (h : ¬ pat <:+: s) :
    ∀ fuel, replaceAllGo pat rep fuel s = s := by
  induction s with
  | nil => intro fuel; cases fuel <;> rfl
  | cons c cs ih =>
    intro fuel
    cases fuel with
    | zero => rfl
    | succ fuel =>
      rw [replaceAllGo]
      have hp : ¬ (pat.isPrefixOf (c :: cs) = true ∧ pat ≠ []) := by
        rintro ⟨hpre, -⟩
        exact h (List.isPrefixOf_iff_prefix.mp hpre).isInfix
      have hcs : ¬ pat <:+: cs := fun hc =>
        h (hc.trans (List.suffix_cons c cs).isInfix)
      rw [if_neg hp, ih hcs]

/-- A global literal replacement with a pattern that never occurs is the
identity. -/
theorem replaceAll_id {pat rep s : List Char} (h : ¬ pat <:+: s) :
    replaceAll pat rep s = s :=
  replaceAllGo_id h _

theorem splitFirst_some_lengths {pat s a b : List Char} (hpat : pat ≠ [])
    (h : splitFirst pat s = some (a, b)) :
    a.length + pat.length + b.length = s.length ∧ b.length < s.length := by
  have hs := splitFirst_spec h
  have hlen := congrArg List.length hs
  simp only [List.length_append] at hlen
  have hp : 0 < pat.length := List.length_pos.mpr hpat
  omega

theorem replaceBlocksGo_fuel (op cl : List Char) (f : List Char → List Char)
    (hop : op ≠ []) (hcl : cl ≠ []) :
    ∀ (k fuel₁ fuel₂ : Nat) (s : List Char), s.length ≤ k →
      s.length < fuel₁ → s.length < fuel₂ →
      replaceBlocksGo op cl f fuel₁ s = replaceBlocksGo op cl f fuel₂ s := by
  intro k
  induction k with
  | zero =>
    intro fuel₁ fuel₂ s hk h1 h2
    have hs : s = [] := List.length_eq_zero.mp (Nat.le_zero.mp hk)
    subst hs
    obtain ⟨f₁, rfl⟩ : ∃ m, fuel₁ = m + 1 := ⟨fuel₁ - 1, by omega⟩
    obtain ⟨f₂, rfl⟩ : ∃ m, fuel₂ = m + 1 := ⟨fuel₂ - 1, by omega⟩
    rw [replaceBlocksGo, replaceBlocksGo, splitFirst_nil hop]
  | succ k ih =>
    intro fuel₁ fuel₂ s hk h1 h2
    obtain ⟨f₁, rfl⟩ : ∃ m, fuel₁ = m + 1 := ⟨fuel₁ - 1, by omega⟩
    obtain ⟨f₂, rfl⟩ : ∃ m, fuel₂ = m + 1 := ⟨fuel₂ - 1, by omega⟩
    rw [replaceBlocksGo, replaceBlocksGo]
    cases hsp : splitFirst op s with
    | none => rfl
    | some p =>
      obtain ⟨pre, tail⟩ := p
      cases hsc : splitFirst cl tail with
      | none => simp only [hsc]
      | some q =>
        obtain ⟨mid, rest⟩ := q
        simp only [hsc]
        have h1' := splitFirst_some_lengths hop hsp
        have h2' := splitFirst_some_lengths hcl hsc
        congr 1
        exact ih f₁ f₂ rest (by omega) (by omega) (by omega)

/-- Characteristic equation of the lazy-block rewriter at a successful
match: the span from the first opening tag to the first closing tag
after it is replaced, and rewriting continues after the span. -/
theorem replaceBlocks_match {op cl : List Char} {f : List Char → List Char}
    {s pre tail mid rest : List Char}
    (hop : op ≠ []) (hcl : cl ≠ [])
    (hsp : splitFirst op s = some (pre, tail))
    (hsc : splitFirst cl tail = some (mid, rest)) :
    replaceBlocks op cl f s = pre ++ f mid ++ replaceBlocks op cl f rest := by
  rw [replaceBlocks, replaceBlocks, replaceBlocksGo]
  simp only [hsp, hsc]
  have h1' := splitFirst_some_lengths hop hsp
  have h2' := splitFirst_some_lengths hcl hsc
  congr 1
  exact replaceBlocksGo_fuel op cl f hop hcl s.length _ _ rest
    (by omega) (by omega) (by omega)

/-- The lazy-block rewriter is the identity when the opening tag never
occurs. -/
theorem replaceBlocks_id {op cl : List Char} {f : List Char → List Char}
    {s : List Char} (h : ¬ op <:+: s) :
    replaceBlocks op cl f s = s := by
  rw [replaceBlocks, replaceBlocksGo, splitFirst_none_of_absent h]

end RewriteLemmas

/-!
## Variable template engine — `src/client/src/hooks/useVariables.ts`
-/

/-- `Variable.type` in `useVariables.ts`. -/
inductive VarType
  | text
  | number
  | date
  | boolean
  | list
deriving DecidableEq

/-- A template variable (`Variable` in `useVariables.ts`); the optional
`description` field plays no role in processing and is omitted. -/
structure Variable where
  name : String
  value : String
  type : VarType

/-! ### `JSON.parse` for list-typed variable values

The list pass calls `JSON.parse(variable.value)` and proceeds only when
the result is an array; each element is used as a flat record
(`Object.keys(item)` / `item[key]`).  The parser below models
`JSON.parse` restricted to the shapes that pass meaningfully consumes:
arrays of flat objects whose values are escape-free strings or
canonically written integers (`String(item[key])` re-stringifies an
integer to the same digits).  Anything else parses to `none`, which the
list pass treats exactly like the source's `catch`: the text is left
untouched. -/

/-- Parse the remainder of a JSON string literal (opening quote already
consumed); escape sequences are out of scope and fail the parse. -/
def parseJStringGo : List Char → List Char → Option (List Char × List Char)
  | [], _ => none
  | c :: rest, acc =>
    if c = '"' then some (acc.reverse, rest)
    else if c = '\\' then none
    else parseJStringGo rest (c :: acc)

/-- Parse a JSON integer literal (optional minus sign, digits). -/
def parseJNumber (l : List Char) : Option (List Char × List Char) :=
  match l with
  | '-' :: rest =>
    let ds := rest.takeWhile Char.isDigit
    if ds = [] then none else some ('-' :: ds, rest.drop ds.length)
  | _ =>
    let ds := l.takeWhile Char.isDigit
    if ds = [] then none else some (ds, l.drop ds.length)

/-- Skip JSON whitespace. -/
def skipWs (l : List Char) : List Char := l.dropWhile jsWs

/-- Parse one field value: a string literal or an integer literal.  The
result is the field's stringification, which is what the list pass
substitutes into the region template. -/
def parseJFieldValue (l : List Char) : Option (List Char × List Char) :=
  match skipWs l with
  | '"' :: rest => parseJStringGo rest []
  | l' => parseJNumber l'

/-- Parse the `"key": value {, "key": value}` fields of an object, up to
and including the closing brace. -/
def parseJPairs : Nat → List Char → List (String × String) →
    Option (List (String × String) × List Char)
  | 0, _, _ => none
  | fuel + 1, l, acc =>
    match skipWs l with
    | '"' :: rest =>
      match parseJStringGo rest [] with
      | none => none
      | some (key, rest2) =>
        match skipWs rest2 with
        | ':' :: rest3 =>
          match parseJFieldValue rest3 with
          | none => none
          | some (v, rest4) =>
            match skipWs rest4 with
            | ',' :: rest5 =>
              parseJPairs fuel rest5 ((String.mk key, String.mk v) :: acc)
            | '}' :: rest5 =>
              some (((String.mk key, String.mk v) :: acc).reverse, rest5)
            | _ => none
        | _ => none
    | _ => none

/-- Parse one flat JSON object. -/
def parseJRecord (fuel : Nat) (l : List Char) :
    Option (List (String × String) × List Char) :=
  match skipWs l with
  | '{' :: rest =>
    match skipWs rest with
    | '}' :: rest2 => some ([], rest2)
    | _ => parseJPairs fuel rest []
  | _ => none

/-- Parse the elements of a JSON array of flat objects, up to and
including the closing bracket. -/
def parseJRecordsGo : Nat → List Char → List (List (String × String)) →
    Option (List (List (String × String)))
  | 0, _, _ => none
  | fuel + 1, l, acc =>
    match parseJRecord fuel l with
    | none => none
    | some (r, rest) =>
      match skipWs rest with
      | ',' :: rest2 => parseJRecordsGo fuel rest2 (r :: acc)
      | ']' :: rest2 => if skipWs rest2 = [] then some ((r :: acc).reverse) else none
      | _ => none

/-- `JSON.parse` of a list variable's raw value, yielding the array of
flat records when (and only when) the value is an array of them. -/
def parseJsonRecords (s : String) : Option (List (List (String × String))) :=
  match skipWs s.data with
  | '[' :: rest =>
    match skipWs rest with
    | ']' :: rest2 => if skipWs rest2 = [] then some [] else none
    | _ => parseJRecordsGo (s.data.length + 1) rest []
  | _ => none

/-! ### Expression evaluator for computed `{{= ... }}` spans

Modelled from the spec (§4.2 Expression Evaluator): the source hands the
sanitized expression to dynamic code construction
(`new Function(...names, 'return ' + safeExpression)`), which has no
shallow embedding; the spec prescribes "a small recursive-descent parser
over `+ - * / ( )`, numeric literals, and bound identifiers, producing a
numeric or string result, stringified on success.  Any parse or
evaluation error is a recoverable `EvalError`".  The evaluator below is
that parser over the exactly-representable integer fragment (integer
literals and bindings, exact division); `+` concatenates two strings as
in JavaScript.  Expressions outside the fragment (floating point,
implicit coercions, `NaN` arithmetic) evaluate to `none`, the recoverable
failure. -/

/-- Typed value bound by the evaluation context built from the variable
set. -/
inductive JValue
  | int (n : Int)
  | bool (b : Bool)
  | str (s : String)

/-- Token of the sanitized expression language. -/
inductive ETok
  | num (n : Nat)
  | ident (s : String)
  | plus
  | minus
  | star
  | slash
  | lpar
  | rpar

/-- Digit run to a number (`parseInt` on a plain digit string). -/
def digitsToNat (ds : List Char) : Nat :=
  ds.foldl (fun n c => n * 10 + (c.toNat - 48)) 0

/-- Tokenizer for sanitized expressions; any character outside the
grammar (for example `.`) fails the parse. -/
def tokenizeGo : Nat → List Char → Option (List ETok)
  | 0, _ => none
  | _ + 1, [] => some []
  | fuel + 1, c :: cs =>
    if jsWs c then tokenizeGo fuel cs
    else if c.isDigit then
      let ds := (c :: cs).takeWhile Char.isDigit
      (tokenizeGo fuel ((c :: cs).drop ds.length)).map (ETok.num (digitsToNat ds) :: ·)
    else if c.isAlpha || c = '_' then
      let idc := (c :: cs).takeWhile (fun d => d.isAlphanum || d = '_')
      (tokenizeGo fuel ((c :: cs).drop idc.length)).map (ETok.ident (String.mk idc) :: ·)
    else if c = '+' then (tokenizeGo fuel cs).map (ETok.plus :: ·)
    else if c = '-' then (tokenizeGo fuel cs).map (ETok.minus :: ·)
    else if c = '*' then (tokenizeGo fuel cs).map (ETok.star :: ·)
    else if c = '/' then (tokenizeGo fuel cs).map (ETok.slash :: ·)
    else if c = '(' then (tokenizeGo fuel cs).map (ETok.lpar :: ·)
    else if c = ')' then (tokenizeGo fuel cs).map (ETok.rpar :: ·)
    else none

def tokenize (l : List Char) : Option (List ETok) :=
  tokenizeGo (l.length + 1) l

/-- `+` on values: integer addition or string concatenation. -/
def jAdd : JValue → JValue → Option JValue
  | JValue.int a, JValue.int b => some (JValue.int (a + b))
  | JValue.str a, JValue.str b => some (JValue.str (a ++ b))
  | _, _ => none

def jSub : JValue → JValue → Option JValue
  | JValue.int a, JValue.int b => some (JValue.int (a - b))
  | _, _ => none

def jMul : JValue → JValue → Option JValue
  | JValue.int a, JValue.int b => some (JValue.int (a * b))
  | _, _ => none

/-- Exact integer division; division by zero or a non-integer quotient
is outside the fragment and fails. -/
def jDiv : JValue → JValue → Option JValue
  | JValue.int a, JValue.int b =>
    if b = 0 then none
    else if b ∣ a then some (JValue.int (a / b)) else none
  | _, _ => none

mutual

/-- Atom: number, bound identifier, unary minus or parenthesized
expression. -/
def parseAtom (ctx : String → Option JValue) : Nat → List ETok →
    Option (JValue × List ETok)
  | 0, _ => none
  | fuel + 1, toks =>
    match toks with
    | ETok.num n :: rest => some (JValue.int (Int.ofNat n), rest)
    | ETok.ident s :: rest => (ctx s).map (fun v => (v, rest))
    | ETok.minus :: rest =>
      match parseAtom ctx fuel rest with
      | some (JValue.int n, rest') => some (JValue.int (-n), rest')
      | _ => none
    | ETok.lpar :: rest =>
      match parseExpr ctx fuel rest with
      | some (v, ETok.rpar :: rest') => some (v, rest')
      | _ => none
    | _ => none

def parseTermLoop (ctx : String → Option JValue) : Nat → JValue → List ETok →
    Option (JValue × List ETok)
  | 0, _, _ => none
  | fuel + 1, v, toks =>
    match toks with
    | ETok.star :: rest =>
      match parseAtom ctx fuel rest with
      | some (w, rest') =>
        match jMul v w with
        | some u => parseTermLoop ctx fuel u rest'
        | none => none
      | none => none
    | ETok.slash :: rest =>
      match parseAtom ctx fuel rest with
      | some (w, rest') =>
        match jDiv v w with
        | some u => parseTermLoop ctx fuel u rest'
        | none => none
      | none => none
    | _ => some (v, toks)

def parseTerm (ctx : String → Option JValue) : Nat → List ETok →
    Option (JValue × List ETok)
  | 0, _ => none
  | fuel + 1, toks =>
    match parseAtom ctx fuel toks with
    | none => none
    | some (v, rest) => parseTermLoop ctx fuel v rest

def parseExprLoop (ctx : String → Option JValue) : Nat → JValue → List ETok →
    Option (JValue × List ETok)
  | 0, _, _ => none
  | fuel + 1, v, toks =>
    match toks with
    | ETok.plus :: rest =>
      match parseTerm ctx fuel rest with
      | some (w, rest') =>
        match jAdd v w with
        | some u => parseExprLoop ctx fuel u rest'
        | none => none
      | none => none
    | ETok.minus :: rest =>
      match parseTerm ctx fuel rest with
      | some (w, rest') =>
        match jSub v w with
        | some u => parseExprLoop ctx fuel u rest'
        | none => none
      | none => none
    | _ => some (v, toks)

def parseExpr (ctx : String → Option JValue) : Nat → List ETok →
    Option (JValue × List ETok)
  | 0, _ => none
  | fuel + 1, toks =>
    match parseTerm ctx fuel toks with
    | none => none
    | some (v, rest) => parseExprLoop ctx fuel v rest

end

/-- Stringify a result (`String(result)` in the source). -/
def jValueToString : JValue → String
  | JValue.int n => n.repr
  | JValue.bool b => if b then "true" else "false"
  | JValue.str s => s

/-- The evaluation context the computed pass builds: numbers parsed for
`number`-typed variables (the exactly-representable integer fragment of
`parseFloat`; a non-integer value falls back to the raw string, failing
integer arithmetic downstream just as `NaN` poisons it), `boolean`
parsed as `value === 'true'`, raw string otherwise.  Variable names are
unique per the data model, so first-match lookup is the object keyed by
name. -/
def buildContext (vars : List Variable) (name : String) : Option JValue :=
  match vars.find? (fun v => v.name == name) with
  | none => none
  | some v =>
    match v.type with
    | VarType.number =>
      match parseJNumber v.value.data with
      | some (ds, []) => some (JValue.int (if ds.head? = some '-'
          then - Int.ofNat (digitsToNat (ds.drop 1))
          else Int.ofNat (digitsToNat ds)))
      | _ => some (JValue.str v.value)
    | VarType.boolean => some (JValue.bool (v.value == "true"))
    | _ => some (JValue.str v.value)

/-- The character class the source keeps when sanitizing an expression:
`[a-zA-Z0-9_+\-*/\s().]`. -/
def keepSafe (c : Char) : Bool :=
  c.isAlphanum || c = '_' || c = '+' || c = '-' || c = '*' || c = '/'
    || jsWs c || c = '(' || c = ')' || c = '.'

/-- `expression.replace(/[^a-zA-Z0-9_+\-*\/\s().]/g, '')`. -/
def sanitizeExpr (e : List Char) : List Char := e.filter keepSafe

/-- Evaluate one captured expression: sanitize, tokenize, parse,
stringify.  `none` is the recoverable evaluation failure (the source's
`catch`). -/
def evalExpr (vars : List Variable) (e : List Char) : Option String :=
  match tokenize (sanitizeExpr e) with
  | none => none
  | some toks =>
    match parseExpr (buildContext vars) (3 * toks.length + 3) toks with
    | some (v, []) => some (jValueToString v)
    | _ => none

/-! ### The five passes of `processTemplate` -/

/-- Truthiness test of the conditional passes:
`variable.value && variable.value !== 'false' && variable.value !== '0'`. -/
def condTruthy (v : Variable) : Bool :=
  v.value ≠ "" && v.value ≠ "false" && v.value ≠ "0"

/-- Pass 1 — plain substitution: for each variable, globally replace
`{{name}}` by the raw value. -/
def substitutionPass (vars : List Variable) (content : List Char) : List Char :=
  vars.foldl
    (fun acc v => replaceAll ("\x7b\x7b" ++ v.name ++ "\x7d\x7d").data v.value.data acc)
    content

/-- One list iteration: substitute the record's fields into a copy of
the region template, then `trim()` the copy. -/
def renderListItem (item : List (String × String)) (tmpl : List Char) : List Char :=
  trimWs (item.foldl
    (fun acc kv => replaceAll ("\x7b\x7b" ++ kv.1 ++ "\x7d\x7d").data kv.2.data acc) tmpl)

/-- All iterations of a region, joined with `'\n'`
(`listData.map(...).join('\n')`). -/
def renderListBlock (records : List (List (String × String)))
    (tmpl : List Char) : List Char :=
  List.intercalate "\n".data (records.map (fun item => renderListItem item tmpl))

/-- Pass 2 — list iteration over `{{#name}}...{{/name}}` regions of each
`list`-typed variable whose value parses as an array; parse failure
leaves the text untouched. -/
def listPass (vars : List Variable) (content : List Char) : List Char :=
  (vars.filter (fun v => decide (v.type = VarType.list))).foldl
    (fun acc v =>
      match parseJsonRecords v.value with
      | some records =>
        replaceBlocks ("\x7b\x7b#" ++ v.name ++ "\x7d\x7d").data
          ("\x7b\x7b/" ++ v.name ++ "\x7d\x7d").data
          (fun tmpl => renderListBlock records tmpl) acc
      | none => acc)
    content

/-- Pass 3 — conditional regions `{{#if name}}...{{/if}}`: keep the
content when the variable is truthy, drop the whole region otherwise. -/
def conditionalPass (vars : List Variable) (content : List Char) : List Char :=
  vars.foldl
    (fun acc v =>
      replaceBlocks ("\x7b\x7b#if " ++ v.name ++ "\x7d\x7d").data "\x7b\x7b/if\x7d\x7d".data
        (fun c => if condTruthy v then c else []) acc)
    content

/-- Pass 4 — inverse conditional regions
`{{#unless name}}...{{/unless}}`: the symmetric falsiness test. -/
def inverseConditionalPass (vars : List Variable) (content : List Char) :
    List Char :=
  vars.foldl
    (fun acc v =>
      replaceBlocks ("\x7b\x7b#unless " ++ v.name ++ "\x7d\x7d").data "\x7b\x7b/unless\x7d\x7d".data
        (fun c => if condTruthy v then [] else c) acc)
    content

/-- The lazy-match acceptance test of `/{{=\s*(.+?)\s*}}/`: between the
surrounding whitespace there must be a nonempty chunk free of line
terminators (`.` does not match them). -/
def validRaw (raw : List Char) : Bool :=
  trimWs raw ≠ [] && (trimWs raw).all (fun c => c ≠ '\n' && c ≠ '\r')

/-- Find the first `}}` that closes a valid computed span, returning the
raw text before it and the remainder after it. -/
def findValidClose : Nat → List Char → Option (List Char × List Char)
  | 0, _ => none
  | fuel + 1, s =>
    match splitFirst "\x7d\x7d".data s with
    | none => none
    | some (raw, rest) =>
      if validRaw raw then some (raw, rest)
      else
        match findValidClose fuel rest with
        | none => none
        | some (raw2, rest2) => some (raw ++ "\x7d\x7d".data ++ raw2, rest2)

/-- Pass 5 scanner: at each position, a `{{=` that opens a valid span is
evaluated — replaced by the stringified result on success and kept
character-for-character on failure — and scanning continues after the
span; everything else is copied through. -/
def scanComputedGo (vars : List Variable) : Nat → List Char → List Char
  | 0, s => s
  | _ + 1, [] => []
  | fuel + 1, c :: cs =>
    if "\x7b\x7b=".data.isPrefixOf (c :: cs) then
      match findValidClose (cs.length + 1) ((c :: cs).drop 3) with
      | some (raw, rest) =>
        match evalExpr vars (trimWs raw) with
        | some r => r.data ++ scanComputedGo vars fuel rest
        | none => "\x7b\x7b=".data ++ raw ++ "\x7d\x7d".data ++ scanComputedGo vars fuel rest
      | none => c :: scanComputedGo vars fuel cs
    else c :: scanComputedGo vars fuel cs

/-- Pass 5 — computed expressions `{{= expr }}`. -/
def computedPass (vars : List Variable) (content : List Char) : List Char :=
  scanComputedGo vars (content.length + 1) content

/-- `processTemplate(content, vars)` of `useVariables.ts`: the five
in-place rewrites of the `processed` accumulator, in source order. -/
def processTemplate (content : String) (vars : List Variable) : String :=
  let p1 := vars.foldl
    (fun acc v => replaceAll ("\x7b\x7b" ++ v.name ++ "\x7d\x7d").data v.value.data acc)
    content.data
  let p2 := (vars.filter (fun v => decide (v.type = VarType.list))).foldl
    (fun acc v =>
      match parseJsonRecords v.value with
      | some records =>
        replaceBlocks ("\x7b\x7b#" ++ v.name ++ "\x7d\x7d").data
          ("\x7b\x7b/" ++ v.name ++ "\x7d\x7d").data
          (fun tmpl => renderListBlock records tmpl) acc
      | none => acc)
    p1
  let p3 := vars.foldl
    (fun acc v =>
      replaceBlocks ("\x7b\x7b#if " ++ v.name ++ "\x7d\x7d").data "\x7b\x7b/if\x7d\x7d".data
        (fun c => if condTruthy v then c else []) acc)
    p2
  let p4 := vars.foldl
    (fun acc v =>
      replaceBlocks ("\x7b\x7b#unless " ++ v.name ++ "\x7d\x7d").data "\x7b\x7b/unless\x7d\x7d".data
        (fun c => if condTruthy v then [] else c) acc)
    p3
  let p5 := scanComputedGo vars (p4.length + 1) p4
  String.mk p5

/-- The spec's reading of the contract (§4.1): five sequential
whole-document passes, each operating on the full output of the
previous one. -/
def expandFivePasses (content : String) (vars : List Variable) : String :=
  String.mk (computedPass vars (inverseConditionalPass vars
    (conditionalPass vars (listPass vars (substitutionPass vars content.data)))))

/-!
## Smart-component scanner and placeholder rewriter —
`src/client/src/hooks/useSmartComponents.tsx`

Each kind scans the entire markdown independently
(`SmartComponentMatch` entries); the collected matches are sorted by
start index and the rewriter replaces the first literal occurrence of
each match's raw text with a synthesized marker.  The kind-specific
payloads beyond what the claims exercise (chart data rows, timeline
items, task lists, stats fields) feed only the rendered React elements
and are not modelled; the progress payload (value and optional label)
is, since the renderer's clamping is under test. -/

/-- One scanned component occurrence (`SmartComponentMatch`): kind,
span start, raw matched text, and the progress payload where
applicable. -/
structure SComp where
  kind : String
  start : Nat
  content : List Char
  value : Nat
  label : Option (List Char)
deriving DecidableEq

/-- Keyword test of a chart block: the first line of the trimmed
content, lower-cased, must be `bar`, `line`, `pie` or `donut`. -/
def chartTypeOk (mid : List Char) : Bool :=
  let t := trimWs mid
  let l0 := (t.takeWhile (fun c => c ≠ '\n')).map Char.toLower
  l0 = "bar".data || l0 = "line".data || l0 = "pie".data || l0 = "donut".data

/-- `/```chart\n([\s\S]*?)```/g`: every block is consumed, but a
descriptor is pushed only when the keyword test passes. -/
def scanChartGo : Nat → Nat → List Char → List SComp
  | 0, _, _ => []
  | fuel + 1, pos, s =>
    match splitFirst "```chart\n".data s with
    | none => []
    | some (pre, tail) =>
      match splitFirst "```".data tail with
      | none => []
      | some (mid, rest) =>
        let start := pos + pre.length
        let raw := "```chart\n".data ++ mid ++ "```".data
        (if chartTypeOk mid then [⟨"chart", start, raw, 0, none⟩] else [])
          ++ scanChartGo fuel (start + raw.length) rest

def scanChart (md : List Char) : List SComp := scanChartGo (md.length + 1) 0 md

/-- `/```timeline\n([\s\S]*?)```/g`: every block produces a descriptor. -/
def scanTimelineGo : Nat → Nat → List Char → List SComp
  | 0, _, _ => []
  | fuel + 1, pos, s =>
    match splitFirst "```timeline\n".data s with
    | none => []
    | some (pre, tail) =>
      match splitFirst "```".data tail with
      | none => []
      | some (mid, rest) =>
        let start := pos + pre.length
        let raw := "```timeline\n".data ++ mid ++ "```".data
        ⟨"timeline", start, raw, 0, none⟩
          :: scanTimelineGo fuel (start + raw.length) rest

def scanTimeline (md : List Char) : List SComp :=
  scanTimelineGo (md.length + 1) 0 md

/-- The lazy label capture of `/\[progress:(\d+)(?::(.+?))?\]/`: at
least one character matched by `.` (no line terminators), then the
earliest possible `]`. -/
def findLabelGo : List Char → List Char → Option (List Char × List Char)
  | [], _ => none
  | c :: cs, acc =>
    if c = ']' then some (acc.reverse, cs)
    else if c = '\n' || c = '\r' then none
    else findLabelGo cs (c :: acc)

def findLabel : List Char → Option (List Char × List Char)
  | [] => none
  | c :: cs => if c = '\n' || c = '\r' then none else findLabelGo cs [c]

/-- `/\[progress:(\d+)(?::(.+?))?\]/g`: a digit run (any length, no
range check) with an optional label. -/
def scanProgressGo : Nat → Nat → List Char → List SComp
  | 0, _, _ => []
  | _ + 1, _, [] => []
  | fuel + 1, pos, c :: cs =>
    if "[progress:".data.isPrefixOf (c :: cs) then
      let afterTag := (c :: cs).drop 10
      let ds := afterTag.takeWhile Char.isDigit
      if ds = [] then scanProgressGo fuel (pos + 1) cs
      else
        match afterTag.drop ds.length with
        | [] => scanProgressGo fuel (pos + 1) cs
        | c' :: rest =>
          if c' = ']' then
            let raw := "[progress:".data ++ ds ++ [']']
            ⟨"progress", pos, raw, digitsToNat ds, none⟩
              :: scanProgressGo fuel (pos + raw.length) rest
          else if c' = ':' then
            match findLabel rest with
            | some (lab, rest3) =>
              let raw := "[progress:".data ++ ds ++ ':' :: (lab ++ [']'])
              ⟨"progress", pos, raw, digitsToNat ds, some lab⟩
                :: scanProgressGo fuel (pos + raw.length) rest3
            | none => scanProgressGo fuel (pos + 1) cs
          else scanProgressGo fuel (pos + 1) cs
    else scanProgressGo fuel (pos + 1) cs

def scanProgress (md : List Char) : List SComp :=
  scanProgressGo (md.length + 1) 0 md

/-- `/```tasks?\n/`: the optional `s` is tried greedily. -/
def tasksOpen (s : List Char) : Option (List Char × List Char) :=
  if "```tasks\n".data.isPrefixOf s then some ("```tasks\n".data, s.drop 9)
  else if "```task\n".data.isPrefixOf s then some ("```task\n".data, s.drop 8)
  else none

def scanTasksGo : Nat → Nat → List Char → List SComp
  | 0, _, _ => []
  | _ + 1, _, [] => []
  | fuel + 1, pos, c :: cs =>
    match tasksOpen (c :: cs) with
    | some (op, after) =>
      match splitFirst "```".data after with
      | none => scanTasksGo fuel (pos + 1) cs
      | some (mid, rest) =>
        let raw := op ++ mid ++ "```".data
        ⟨"tasks", pos, raw, 0, none⟩ :: scanTasksGo fuel (pos + raw.length) rest
    | none => scanTasksGo fuel (pos + 1) cs

def scanTasks (md : List Char) : List SComp := scanTasksGo (md.length + 1) 0 md

/-- `/:::(info|warning|error|success|tip)\n/`: alternatives tried in
source order. -/
def alertOpen (s : List Char) : Option (List Char × List Char) :=
  if ":::info\n".data.isPrefixOf s then some (":::info\n".data, s.drop 8)
  else if ":::warning\n".data.isPrefixOf s then some (":::warning\n".data, s.drop 11)
  else if ":::error\n".data.isPrefixOf s then some (":::error\n".data, s.drop 9)
  else if ":::success\n".data.isPrefixOf s then some (":::success\n".data, s.drop 11)
  else if ":::tip\n".data.isPrefixOf s then some (":::tip\n".data, s.drop 7)
  else none

def scanAlertGo : Nat → Nat → List Char → List SComp
  | 0, _, _ => []
  | _ + 1, _, [] => []
  | fuel + 1, pos, c :: cs =>
    match alertOpen (c :: cs) with
    | some (op, after) =>
      match splitFirst ":::".data after with
      | none => scanAlertGo fuel (pos + 1) cs
      | some (mid, rest) =>
        let raw := op ++ mid ++ ":::".data
        ⟨"alert", pos, raw, 0, none⟩ :: scanAlertGo fuel (pos + raw.length) rest
    | none => scanAlertGo fuel (pos + 1) cs

def scanAlert (md : List Char) : List SComp := scanAlertGo (md.length + 1) 0 md

/-- `/```stats?\n/`. -/
def statsOpen (s : List Char) : Option (List Char × List Char) :=
  if "```stats\n".data.isPrefixOf s then some ("```stats\n".data, s.drop 9)
  else if "```stat\n".data.isPrefixOf s then some ("```stat\n".data, s.drop 8)
  else none

def scanStatsGo : Nat → Nat → List Char → List SComp
  | 0, _, _ => []
  | _ + 1, _, [] => []
  | fuel + 1, pos, c :: cs =>
    match statsOpen (c :: cs) with
    | some (op, after) =>
      match splitFirst "```".data after with
      | none => scanStatsGo fuel (pos + 1) cs
      | some (mid, rest) =>
        let raw := op ++ mid ++ "```".data
        ⟨"stats", pos, raw, 0, none⟩ :: scanStatsGo fuel (pos + raw.length) rest
    | none => scanStatsGo fuel (pos + 1) cs

def scanStats (md : List Char) : List SComp := scanStatsGo (md.length + 1) 0 md

/-- All kinds' matches in the push order of `useSmartComponents`. -/
def scanAll (md : List Char) : List SComp :=
  scanChart md ++ scanTimeline md ++ scanProgress md ++ scanTasks md
    ++ scanAlert md ++ scanStats md

/-- Stable insertion after all entries with a start not greater —
`components.sort((a, b) => a.startIndex - b.startIndex)`. -/
def sortInsert (d : SComp) : List SComp → List SComp
  | [] => [d]
  | e :: es => if e.start ≤ d.start then e :: sortInsert d es else d :: e :: es

def sortByStart (l : List SComp) : List SComp :=
  l.foldl (fun acc d => sortInsert d acc) []

/-- `smartComponents`: every match, sorted by start index. -/
def smartComponents (md : List Char) : List SComp := sortByStart (scanAll md)

/-- The marker key synthesized for the component at sorted position
`index`: `<!--SMART_COMPONENT_${index}-->`. -/
def smartMarker (i : Nat) : String :=
  "<!--SMART_COMPONENT_" ++ Nat.repr i ++ "-->"

/-- The rewriting loop of `transformMarkdown`: for each component in
sorted order, replace the first literal occurrence of its raw text with
its marker. -/
def transformGo : Nat → List SComp → List Char → List Char
  | _, [], s => s
  | i, d :: ds, s => transformGo (i + 1) ds (replaceFirst d.content (smartMarker i).data s)

/-- `transformMarkdown` of `useSmartComponents.tsx`. -/
def transformMarkdown (md : String) : String :=
  String.mk (transformGo 0 (smartComponents md.data) md.data)

/-!
## Progress renderer — `src/client/src/components/SmartComponents.tsx`
-/

/-- `ProgressBar`'s displayed value:
`Math.min(100, Math.max(0, value))`. -/
def clampedValue (value : Nat) : Nat := min 100 (max 0 value)

/-!
## Image resolver — the image utility module and the upload batch loop
of `src/client/src/store/exportHistoryStore.ts`

An uploaded `File` is modelled by its name, byte size, MIME type and
the data-URL string its bytes read back as (`FileReader.readAsDataURL`
is deterministic in the bytes, so the embedding carries the result
directly).  Canvas-based recompression (`compressImage`) decodes and
re-encodes pixels — environment behavior with no shallow embedding — so
the batch loop is parameterized by the compression function; everything
the claims exercise (the hard size ceiling, its error message, and the
per-asset try/catch that lets the batch continue) is embedded from the
source. -/

/-- An uploaded browser `File`. -/
structure FileRec where
  name : String
  size : Nat
  ftype : String
  dataUrl : String

/-- `const MAX_FILE_SIZE = 5 * 1024 * 1024`. -/
def MAX_FILE_SIZE : Nat := 5 * 1024 * 1024

/-- `convertImageToBase64`: reject an asset over the hard ceiling with
the message that names it; otherwise resolve to the data-URL of the
file's bytes. -/
def convertImageToBase64 (f : FileRec) : Except String String :=
  if f.size > MAX_FILE_SIZE then
    Except.error ("File " ++ f.name ++ " is too large. Max size is 5MB.")
  else Except.ok f.dataUrl

/-- The per-file body of the upload loop: compress when the file
exceeds 100KB, then read it back as a data-URL; any failure is the
caught per-file error. -/
def uploadStep (compress : FileRec → Except String FileRec) (f : FileRec) :
    Except String String :=
  match (if f.size > 100 * 1024 then compress f else Except.ok f) with
  | Except.error e => Except.error e
  | Except.ok pf => convertImageToBase64 pf

/-- `for (let i = 0; i < files.length; i++) { ... }` of
`handleImageUpload`: image files are processed sequentially in input
order, each outcome recorded independently (a `toast.error` for a
rejection, the embedded image otherwise); non-image files are skipped. -/
def processFiles (compress : FileRec → Except String FileRec) :
    List FileRec → List (String × Except String String)
  | [] => []
  | f :: fs =>
    if "image/".data.isPrefixOf f.ftype.data then
      (f.name, uploadStep compress f) :: processFiles compress fs
    else processFiles compress fs

/-- Split a display name into stem and extension, after
`/\.[^/.]+$/`: the final dot-segment, provided it is nonempty and free
of `/` and further dots. -/
def extSplit (filename : List Char) : List Char × List Char :=
  let revSeg := filename.reverse.takeWhile (fun c => c ≠ '.' && c ≠ '/')
  match filename.reverse.drop revSeg.length with
  | '.' :: restRev =>
    if revSeg = [] then (filename, [])
    else (restRev.reverse, '.' :: revSeg.reverse)
  | _ => (filename, [])

/-- `generatePathVariations`: the fixed list of conventional reference
forms, plus — when the name has an extension — the same name with the
extension lower-cased and upper-cased. -/
def generatePathVariations (filename : String) : List String :=
  let base := [filename,
    "./" ++ filename,
    "images/" ++ filename,
    "./images/" ++ filename,
    "assets/" ++ filename,
    "./assets/" ++ filename,
    "img/" ++ filename,
    "./img/" ++ filename,
    "pics/" ++ filename,
    "./pics/" ++ filename,
    "media/" ++ filename,
    "./media/" ++ filename]
  let se := extSplit filename.data
  if se.2 ≠ [] then
    base ++ [String.mk (se.1 ++ se.2.map Char.toLower),
      String.mk (se.1 ++ se.2.map Char.toUpper)]
  else base

/-- `Map.set`: overwrite in place or append. -/
def mapSet (k v : String) : List (String × String) → List (String × String)
  | [] => [(k, v)]
  | (k', v') :: rest =>
    if k' = k then (k, v) :: rest else (k', v') :: mapSet k v rest

/-- `Map.get`. -/
def mapGet (m : List (String × String)) (k : String) : Option String :=
  (m.find? (fun p => p.1 == k)).map (fun p => p.2)

/-- `variations.forEach(path => newImageMap.set(path, base64))` of
`handleImageUpload`: index every path variant of an uploaded asset at
the same embedded bytes. -/
def registerUpload (m : List (String × String)) (filename : String)
    (base64 : String) : List (String × String) :=
  (generatePathVariations filename).foldl (fun acc p => mapSet p base64 acc) m

/-- One match of `/!\[([^\]]*)\]\(([^)]+)\)/` at the current position:
`(fullMatch, altText, imagePath, rest)`. -/
def tryImgRef (s : List Char) :
    Option (List Char × List Char × List Char × List Char) :=
  if "![".data.isPrefixOf s then
    let after := s.drop 2
    let alt := after.takeWhile (fun c => c ≠ ']')
    match after.drop alt.length with
    | ']' :: '(' :: r2 =>
      let path := r2.takeWhile (fun c => c ≠ ')')
      if path = [] then none
      else
        match r2.drop path.length with
        | ')' :: rest =>
          some ("![".data ++ alt ++ ']' :: '(' :: (path ++ [')']), alt, path, rest)
        | _ => none
    | _ => none
  else none

/-- `[...markdown.matchAll(standardImageRegex)]`. -/
def scanImgRefsGo : Nat → List Char → List (List Char × List Char × List Char)
  | 0, _ => []
  | _ + 1, [] => []
  | fuel + 1, c :: cs =>
    match tryImgRef (c :: cs) with
    | some (full, alt, path, rest) =>
      (full, alt, path) :: scanImgRefsGo fuel rest
    | none => scanImgRefsGo fuel cs

def scanImgRefs (md : List Char) : List (List Char × List Char × List Char) :=
  scanImgRefsGo (md.length + 1) md

/-- One match of `/!\[\[([^\]|]+)(?:\|([^\]]+))?\]\]/` at the current
position: `(fullMatch, imagePath, rest)`. -/
def tryObsidianRef (s : List Char) :
    Option (List Char × List Char × List Char) :=
  if "![[".data.isPrefixOf s then
    let after := s.drop 3
    let path := after.takeWhile (fun c => c ≠ ']' && c ≠ '|')
    if path = [] then none
    else
      match after.drop path.length with
      | ']' :: ']' :: rest =>
        some ("![[".data ++ path ++ "]]".data, path, rest)
      | '|' :: r2 =>
        let sz := r2.takeWhile (fun c => c ≠ ']')
        if sz = [] then none
        else
          match r2.drop sz.length with
          | ']' :: ']' :: rest =>
            some ("![[".data ++ path ++ '|' :: (sz ++ "]]".data), path, rest)
          | _ => none
      | _ => none
  else none

def scanObsidianRefsGo : Nat → List Char → List (List Char × List Char)
  | 0, _ => []
  | _ + 1, [] => []
  | fuel + 1, c :: cs =>
    match tryObsidianRef (c :: cs) with
    | some (full, path, rest) => (full, path) :: scanObsidianRefsGo fuel rest
    | none => scanObsidianRefsGo fuel cs

def scanObsidianRefs (md : List Char) : List (List Char × List Char) :=
  scanObsidianRefsGo (md.length + 1) md

/-- `processMarkdownImages`: collect the standard-syntax matches of the
original markdown and, for each whose path is indexed, replace its
first occurrence with the embedded form; then do the same for
Obsidian-syntax matches of the intermediate text. -/
def processMarkdownImages (markdown : String)
    (imageMap : List (String × String)) : String :=
  let p1 := (scanImgRefs markdown.data).foldl
    (fun acc m =>
      match mapGet imageMap (String.mk m.2.2) with
      | some b64 =>
        replaceFirst m.1 ("![".data ++ m.2.1 ++ ']' :: '(' :: (b64.data ++ [')'])) acc
      | none => acc)
    markdown.data
  let p2 := (scanObsidianRefs p1).foldl
    (fun acc m =>
      match mapGet imageMap (String.mk m.2) with
      | some b64 =>
        replaceFirst m.1 ("![".data ++ m.2 ++ ']' :: '(' :: (b64.data ++ [')'])) acc
      | none => acc)
    p1
  String.mk p2

/-!
## Claims
-/

/-- C1.  `expand(bodyText, variables)` processes the document in exactly
five sequential whole-document passes — plain substitution, list
iteration, conditionals, inverse conditionals, computed expressions, in
that order — each pass operating on the full output text of the
previous pass: the monolithic `processTemplate` equals the composition
of the five named passes. -/
theorem C1_processTemplate_is_five_sequential_passes
    (content : String) (vars : List Variable) :
    processTemplate content vars = expandFivePasses content vars := rfl

/-- C3 counterexample.  Expanding `"{{#items}}-{{label}}\n{{/items}}"`
with `items = [{label:"A"},{label:"B"}]` does *not* yield `"-A\n-B\n"`:
the source trims each iteration and joins with `'\n'`, so no trailing
newline survives. -/
theorem C3_counterexample :
    processTemplate "\x7b\x7b#items\x7d\x7d-\x7b\x7blabel\x7d\x7d\n\x7b\x7b/items\x7d\x7d"
      [⟨"items", "[\x7b\"label\":\"A\"\x7d,\x7b\"label\":\"B\"\x7d]", VarType.list⟩]
      ≠ "-A\n-B\n" := by decide

/-- C3 (amended).  Expanding `"{{#items}}-{{label}}\n{{/items}}"` with
`items = [{label:"A"},{label:"B"}]` yields `"-A\n-B"`: each record's
fields are substituted into a copy of the region's template, each copy
is trimmed of surrounding whitespace, and the copies are joined with
single newlines in record order. -/
theorem C3_list_iteration_amended :
    processTemplate "\x7b\x7b#items\x7d\x7d-\x7b\x7blabel\x7d\x7d\n\x7b\x7b/items\x7d\x7d"
      [⟨"items", "[\x7b\"label\":\"A\"\x7d,\x7b\"label\":\"B\"\x7d]", VarType.list⟩]
      = "-A\n-B" := by decide

/-- C5 counterexample.  A marker key is ordinary ASCII text an author
can type, so the claimed disjointness from every typable document
fails: this document contains the marker key of index 0 verbatim. -/
theorem C5_counterexample :
    (smartMarker 0).data <:+:
      "The author typed <!--SMART_COMPONENT_0--> by hand".data := by decide

/-- C5 (amended).  Marker keys share the fixed prefix
`<!--SMART_COMPONENT_`, so they are disjoint from every document that
does not contain that prefix: for such documents no marker key of any
index occurs as a substring. -/
theorem C5_markers_disjoint_amended (doc : String) (i : Nat)
    (h : ¬ ("<!--SMART_COMPONENT_".data <:+: doc.data)) :
    ¬ ((smartMarker i).data <:+: doc.data) := by
  intro hc
  apply h
  have hdec : (smartMarker i).data
      = "<!--SMART_COMPONENT_".data ++ ((Nat.repr i).data ++ "-->".data) := by
    show ("<!--SMART_COMPONENT_".data ++ (Nat.repr i).data) ++ "-->".data
      = "<!--SMART_COMPONENT_".data ++ ((Nat.repr i).data ++ "-->".data)
    exact List.append_assoc _ _ _
  have hpfx : "<!--SMART_COMPONENT_".data <+: (smartMarker i).data :=
    ⟨(Nat.repr i).data ++ "-->".data, hdec.symm⟩
  exact hpfx.isInfix.trans hc

theorem C5_witness :
    ¬ ("<!--SMART_COMPONENT_".data <:+: "hello world".data) ∧
    ¬ ((smartMarker 3).data <:+: "hello world".data) :=
  ⟨by decide, C5_markers_disjoint_amended "hello world" 3 (by decide)⟩

/-- C7.  Ingestion rejects every asset over the fixed 5MB hard ceiling
with an error naming the ceiling, and the rejection aborts only that
one asset: the remaining assets of the batch are still processed
sequentially in input order.  (In the upload loop the ceiling check of
`convertImageToBase64` runs on the asset as handed over by the
compression step.) -/
theorem C7_oversize_rejected_batch_continues
    (compress : FileRec → Except String FileRec) (f g : FileRec)
    (rest : List FileRec)
    (himg : "image/".data.isPrefixOf f.ftype.data = true)
    (hbig : f.size > 100 * 1024)
    (hc : compress f = Except.ok g)
    (hover : g.size > MAX_FILE_SIZE) :
    convertImageToBase64 g
      = Except.error ("File " ++ g.name ++ " is too large. Max size is 5MB.")
    ∧ processFiles compress (f :: rest)
      = (f.name,
          Except.error ("File " ++ g.name ++ " is too large. Max size is 5MB."))
        :: processFiles compress rest := by
  have hconv : convertImageToBase64 g
      = Except.error ("File " ++ g.name ++ " is too large. Max size is 5MB.") := by
    rw [convertImageToBase64, if_pos hover]
  refine ⟨hconv, ?_⟩
  rw [processFiles, if_pos himg, uploadStep, if_pos hbig, hc]
  show (f.name, convertImageToBase64 g) :: processFiles compress rest = _
  rw [hconv]

theorem C7_witness :
    convertImageToBase64 ⟨"big.png", 6 * 1024 * 1024, "image/png", "D"⟩
      = Except.error "File big.png is too large. Max size is 5MB."
    ∧ processFiles (fun x => Except.ok x)
        [⟨"big.png", 6 * 1024 * 1024, "image/png", "D"⟩,
         ⟨"small.png", 1000, "image/png", "E"⟩]
      = ("big.png", Except.error "File big.png is too large. Max size is 5MB.")
        :: processFiles (fun x => Except.ok x) [⟨"small.png", 1000, "image/png", "E"⟩] :=
  C7_oversize_rejected_batch_continues (fun x => Except.ok x)
    ⟨"big.png", 6 * 1024 * 1024, "image/png", "D"⟩
    ⟨"big.png", 6 * 1024 * 1024, "image/png", "D"⟩
    [⟨"small.png", 1000, "image/png", "E"⟩]
    (by decide) (by decide) rfl (by decide)

theorem not_infix_dropLast {pat : List Char} (h : pat ≠ []) :
    ¬ pat <:+: pat.dropLast := by
  intro hc
  have hle := hc.length_le
  have hlen : pat.dropLast.length = pat.length - 1 := List.length_dropLast pat
  have hpos : 0 < pat.length := List.length_pos.mpr h
  omega

theorem splitFirst_at_front {pat : List Char} (h : pat ≠ []) (b : List Char) :
    splitFirst pat (pat ++ b) = some ([], b) :=
  splitFirst_append [] b h (not_infix_dropLast h)

/-- C2.  A conditional region `{{#if v}}...{{/if}}` is replaced by its
inner content when `v`'s raw value is non-empty and not `"false"` and
not `"0"` (the `condTruthy` test), and is dropped entirely — wrapper
and content — otherwise; rewriting then continues identically on the
rest of the document, so every occurrence is decided by the same test.
In particular `"\x7b\x7b#if flag\x7d\x7dX\x7b\x7b/if\x7d\x7dY"` with `flag="false"` expands to
`"Y"`. -/
theorem C2_conditional_regions (v : Variable) (inner rest : List Char)
    (H : ¬ ("\x7b\x7b/if\x7d\x7d".data <:+: (inner ++ "\x7b\x7b/if\x7d".data))) :
    conditionalPass [v]
        (("\x7b\x7b#if " ++ v.name ++ "\x7d\x7d").data ++ (inner ++ ("\x7b\x7b/if\x7d\x7d".data ++ rest)))
      = (if condTruthy v then inner else []) ++ conditionalPass [v] rest
    ∧ processTemplate "\x7b\x7b#if flag\x7d\x7dX\x7b\x7b/if\x7d\x7dY" [⟨"flag", "false", VarType.boolean⟩]
      = "Y" := by
  constructor
  · have hop : ("\x7b\x7b#if " ++ v.name ++ "\x7d\x7d").data ≠ [] := by
      show ('{' :: '{' :: '#' :: 'i' :: 'f' :: ' ' :: (v.name.data ++ "\x7d\x7d".data)) ≠ []
      simp
    have hcl : ("\x7b\x7b/if\x7d\x7d".data : List Char) ≠ [] := by decide
    have hsp : splitFirst ("\x7b\x7b#if " ++ v.name ++ "\x7d\x7d").data
        (("\x7b\x7b#if " ++ v.name ++ "\x7d\x7d").data ++ (inner ++ ("\x7b\x7b/if\x7d\x7d".data ++ rest)))
        = some ([], inner ++ ("\x7b\x7b/if\x7d\x7d".data ++ rest)) := splitFirst_at_front hop _
    have H' : ¬ ("\x7b\x7b/if\x7d\x7d".data <:+: (inner ++ ("\x7b\x7b/if\x7d\x7d".data).dropLast)) := by
      have hdl : ("\x7b\x7b/if\x7d\x7d".data).dropLast = "\x7b\x7b/if\x7d".data := by decide
      rw [hdl]; exact H
    have hsc : splitFirst "\x7b\x7b/if\x7d\x7d".data (inner ++ ("\x7b\x7b/if\x7d\x7d".data ++ rest))
        = some (inner, rest) := by
      rw [← List.append_assoc]
      exact splitFirst_append inner rest hcl H'
    have hmain := replaceBlocks_match
      (f := fun c => if condTruthy v then c else []) hop hcl hsp hsc
    show replaceBlocks ("\x7b\x7b#if " ++ v.name ++ "\x7d\x7d").data "\x7b\x7b/if\x7d\x7d".data
        (fun c => if condTruthy v then c else [])
        (("\x7b\x7b#if " ++ v.name ++ "\x7d\x7d").data ++ (inner ++ ("\x7b\x7b/if\x7d\x7d".data ++ rest)))
      = _
    rw [hmain]
    simp only [List.nil_append]
    rfl
  · decide

theorem C2_witness :
    ¬ ("\x7b\x7b/if\x7d\x7d".data <:+: ("X".data ++ "\x7b\x7b/if\x7d".data)) ∧
    (conditionalPass [⟨"flag", "false", VarType.boolean⟩]
        (("\x7b\x7b#if " ++ "flag" ++ "\x7d\x7d").data ++ ("X".data ++ ("\x7b\x7b/if\x7d\x7d".data ++ "Y".data)))
      = (if condTruthy ⟨"flag", "false", VarType.boolean⟩ then "X".data else [])
        ++ conditionalPass [⟨"flag", "false", VarType.boolean⟩] "Y".data
    ∧ processTemplate "\x7b\x7b#if flag\x7d\x7dX\x7b\x7b/if\x7d\x7dY" [⟨"flag", "false", VarType.boolean⟩]
      = "Y") :=
  ⟨by decide,
    C2_conditional_regions ⟨"flag", "false", VarType.boolean⟩ "X".data "Y".data
      (by decide)⟩

/-- When no character of `a` occurs in `pat`, no occurrence of `pat`
can start inside `a`, so the aligned occurrence is the first one. -/
theorem splitFirst_append_disjoint {pat : List Char} (a b : List Char)
    (hne : pat ≠ []) (hb : ∀ ch ∈ a, ch ∉ pat) :
    splitFirst pat (a ++ pat ++ b) = some (a, b) := by
  induction a with
  | nil => exact splitFirst_at_front hne b
  | cons c a ih =>
    obtain ⟨p, ps, hps⟩ : ∃ p ps, pat = p :: ps := by
      cases pat with
      | nil => exact absurd rfl hne
      | cons p ps => exact ⟨p, ps, rfl⟩
    have hp : ¬ pat.isPrefixOf (c :: (a ++ pat ++ b)) := by
      intro hcpre
      have hpx := List.isPrefixOf_iff_prefix.mp hcpre
      rw [hps] at hpx
      have hpc : p = c := (List.cons_prefix_cons.mp hpx).1
      have : c ∈ pat := by rw [hps, ← hpc]; exact List.mem_cons_self p ps
      exact hb c (List.mem_cons_self c a) this
    have hgoal : splitFirst pat (c :: (a ++ pat ++ b)) = some (c :: a, b) := by
      rw [splitFirst_cons, if_neg hp,
        ih (fun ch hch => hb ch (List.mem_cons_of_mem c hch))]
      rfl
    simpa using hgoal

theorem scanChartGo_nil (fuel pos : Nat) : scanChartGo fuel pos [] = [] := by
  cases fuel with
  | zero => rfl
  | succ fuel =>
    rw [scanChartGo, splitFirst_nil (by decide : "```chart\n".data ≠ [])]

/-- C6 (amended).  A fenced chart block whose first line is not one of
`bar`, `line`, `pie`, `donut` produces zero chart descriptors; and
provided no other component kind's syntax matches anywhere in the
document (other kinds scan the block's interior independently), the
block's original fenced text passes through the scan-and-rewrite stage
unchanged. -/
theorem C6_unknown_chart_keyword_amended (body : String)
    (hbt : ∀ ch ∈ body.data, ch ≠ '`')
    (hkw : chartTypeOk body.data = false)
    (hoth : scanAll ("```chart\n" ++ body ++ "```").data
        = scanChart ("```chart\n" ++ body ++ "```").data) :
    scanChart ("```chart\n" ++ body ++ "```").data = []
    ∧ transformMarkdown ("```chart\n" ++ body ++ "```")
        = "```chart\n" ++ body ++ "```" := by
  have hmd : ("```chart\n" ++ body ++ "```").data
      = "```chart\n".data ++ (body.data ++ "```".data) :=
    List.append_assoc "```chart\n".data body.data "```".data
  have hchart : scanChart ("```chart\n" ++ body ++ "```").data = [] := by
    rw [scanChart, scanChartGo, hmd]
    rw [splitFirst_at_front (by decide : "```chart\n".data ≠ []) _]
    have hsc : splitFirst "```".data (body.data ++ "```".data)
        = some (body.data, []) := by
      have h0 := splitFirst_append_disjoint body.data []
        (by decide : "```".data ≠ [])
        (fun ch hch => by
          have := hbt ch hch
          simp [this])
      rwa [List.append_nil] at h0
    simp only [hsc, hkw, if_false, List.nil_append]
    exact scanChartGo_nil _ _
  refine ⟨hchart, ?_⟩
  show String.mk (transformGo 0
    (smartComponents ("```chart\n" ++ body ++ "```").data)
    ("```chart\n" ++ body ++ "```").data) = _
  rw [smartComponents, hoth, hchart]
  rfl

theorem C6_witness :
    (∀ ch ∈ "foo\n".data, ch ≠ '`')
    ∧ chartTypeOk "foo\n".data = false
    ∧ (scanChart ("```chart\n" ++ "foo\n" ++ "```").data = []
      ∧ transformMarkdown ("```chart\n" ++ "foo\n" ++ "```")
          = "```chart\n" ++ "foo\n" ++ "```") :=
  ⟨by decide, by decide,
    C6_unknown_chart_keyword_amended "foo\n" (by decide) (by decide) (by decide)⟩

theorem findValidClose_spec : ∀ (fuel : Nat) {x raw rest : List Char},
    findValidClose fuel x = some (raw, rest) → x = raw ++ "\x7d\x7d".data ++ rest := by
  intro fuel
  induction fuel with
  | zero => intro x raw rest h; exact absurd h (by rw [findValidClose]; simp)
  | succ fuel ih =>
    intro x raw rest h
    rw [findValidClose] at h
    cases hsp : splitFirst "\x7d\x7d".data x with
    | none => rw [hsp] at h; simp at h
    | some p =>
      obtain ⟨a, b⟩ := p
      rw [hsp] at h
      by_cases hv : validRaw a = true
      · simp only [hv, if_true, Option.some.injEq, Prod.mk.injEq] at h
        obtain ⟨rfl, rfl⟩ := h
        exact splitFirst_spec hsp
      · simp only [hv, if_false] at h
        cases hfc : findValidClose fuel b with
        | none => rw [hfc] at h; simp at h
        | some q =>
          obtain ⟨r2, s2⟩ := q
          rw [hfc] at h
          have h' : (some (a ++ "\x7d\x7d".data ++ r2, s2)
              : Option (List Char × List Char)) = some (raw, rest) := h
          injection h' with hpair
          have h1 : a ++ "\x7d\x7d".data ++ r2 = raw := congrArg Prod.fst hpair
          have h2 : s2 = rest := congrArg Prod.snd hpair
          have hb := ih hfc
          have hx := splitFirst_spec hsp
          rw [hx, hb, ← h1, ← h2]
          simp [List.append_assoc]

theorem scanComputedGo_fuel (vars : List Variable) :
    ∀ (k f₁ f₂ : Nat) (s : List Char), s.length ≤ k →
      s.length < f₁ → s.length < f₂ →
      scanComputedGo vars f₁ s = scanComputedGo vars f₂ s := by
  intro k
  induction k with
  | zero =>
    intro f₁ f₂ s hk h1 h2
    have hs : s = [] := List.length_eq_zero.mp (Nat.le_zero.mp hk)
    subst hs
    obtain ⟨m₁, rfl⟩ : ∃ m, f₁ = m + 1 := ⟨f₁ - 1, by omega⟩
    obtain ⟨m₂, rfl⟩ : ∃ m, f₂ = m + 1 := ⟨f₂ - 1, by omega⟩
    rfl
  | succ k ih =>
    intro f₁ f₂ s hk h1 h2
    obtain ⟨m₁, rfl⟩ : ∃ m, f₁ = m + 1 := ⟨f₁ - 1, by omega⟩
    obtain ⟨m₂, rfl⟩ : ∃ m, f₂ = m + 1 := ⟨f₂ - 1, by omega⟩
    cases s with
    | nil => rfl
    | cons c cs =>
      have hL : (c :: cs).length = cs.length + 1 := rfl
      rw [scanComputedGo, scanComputedGo]
      by_cases hpre : ("\x7b\x7b=".data.isPrefixOf (c :: cs)) = true
      · rw [if_pos hpre, if_pos hpre]
        cases hfc : findValidClose (cs.length + 1) ((c :: cs).drop 3) with
        | none =>
          show c :: scanComputedGo vars m₁ cs = c :: scanComputedGo vars m₂ cs
          exact congrArg (fun t => c :: t)
            (ih m₁ m₂ cs (by omega) (by omega) (by omega))
        | some p =>
          obtain ⟨raw, rest⟩ := p
          have hx := findValidClose_spec _ hfc
          have hxl := congrArg List.length hx
          have hdl : ((c :: cs).drop 3).length = (c :: cs).length - 3 :=
            List.length_drop 3 (c :: cs)
          have h2l : ("\x7d\x7d".data : List Char).length = 2 := rfl
          simp only [List.length_append, hdl, h2l] at hxl
          have hrec := ih m₁ m₂ rest (by omega) (by omega) (by omega)
          change (match evalExpr vars (trimWs raw) with
              | some r => r.data ++ scanComputedGo vars m₁ rest
              | none =>
                "\x7b\x7b=".data ++ raw ++ "\x7d\x7d".data ++ scanComputedGo vars m₁ rest)
            = (match evalExpr vars (trimWs raw) with
              | some r => r.data ++ scanComputedGo vars m₂ rest
              | none =>
                "\x7b\x7b=".data ++ raw ++ "\x7d\x7d".data ++ scanComputedGo vars m₂ rest)
          rw [hrec]
      · rw [if_neg hpre, if_neg hpre]
        exact congrArg (fun t => c :: t)
          (ih m₁ m₂ cs (by omega) (by omega) (by omega))

/-- C4.  Whenever a computed-expression span `{{= expr }}` fails to
evaluate, the full original span is left character-for-character
unchanged in the output of the computed pass, and expansion continues
after the span (the failure is local and recoverable; the total
function never throws). -/
theorem C4_failed_expression_preserved (vars : List Variable)
    (raw rest : List Char)
    (hv : validRaw raw = true)
    (H : ¬ ("\x7d\x7d".data <:+: (raw ++ ['}'])))
    (he : evalExpr vars (trimWs raw) = none) :
    computedPass vars ("\x7b\x7b=".data ++ raw ++ "\x7d\x7d".data ++ rest)
      = "\x7b\x7b=".data ++ raw ++ "\x7d\x7d".data ++ computedPass vars rest := by
  have H' : ¬ ("\x7d\x7d".data <:+: (raw ++ ("\x7d\x7d".data).dropLast)) := by
    have hdl : ("\x7d\x7d".data).dropLast = ['}'] := by decide
    rw [hdl]; exact H
  show scanComputedGo vars
      (('{' :: '{' :: '=' :: (raw ++ "\x7d\x7d".data ++ rest)).length + 1)
      ('{' :: '{' :: '=' :: (raw ++ "\x7d\x7d".data ++ rest))
    = "\x7b\x7b=".data ++ raw ++ "\x7d\x7d".data ++ computedPass vars rest
  rw [scanComputedGo]
  have hpre : ("\x7b\x7b=".data.isPrefixOf
      ('{' :: '{' :: '=' :: (raw ++ "\x7d\x7d".data ++ rest))) = true :=
    List.isPrefixOf_iff_prefix.mpr ⟨raw ++ "\x7d\x7d".data ++ rest, rfl⟩
  rw [if_pos hpre]
  have hfc : findValidClose
      ((('{' :: '=' :: (raw ++ "\x7d\x7d".data ++ rest)).length) + 1)
      (('{' :: '{' :: '=' :: (raw ++ "\x7d\x7d".data ++ rest)).drop 3)
      = some (raw, rest) := by
    show findValidClose ((('{' :: '=' :: (raw ++ "\x7d\x7d".data ++ rest)).length) + 1)
      (raw ++ "\x7d\x7d".data ++ rest) = some (raw, rest)
    rw [findValidClose,
      splitFirst_append raw rest (by decide : ("\x7d\x7d".data : List Char) ≠ []) H']
    simp [hv]
  simp only [hfc, he]
  have h2l : ("\x7d\x7d".data : List Char).length = 2 := rfl
  have hlen : ('{' :: '{' :: '=' :: (raw ++ "\x7d\x7d".data ++ rest)).length
      = raw.length + rest.length + 5 := by
    simp only [List.length_cons, List.length_append, h2l]
    omega
  have hrec : scanComputedGo vars
      (('{' :: '{' :: '=' :: (raw ++ "\x7d\x7d".data ++ rest)).length) rest
      = computedPass vars rest := by
    show _ = scanComputedGo vars (rest.length + 1) rest
    exact scanComputedGo_fuel vars (raw.length + rest.length + 5) _ _ rest
      (by omega) (by rw [hlen]; omega) (by omega)
  exact congrArg (fun t => "\x7b\x7b=".data ++ raw ++ "\x7d\x7d".data ++ t) hrec

theorem C4_witness :
    validRaw " ( ".data = true
    ∧ ¬ ("\x7d\x7d".data <:+: (" ( ".data ++ ['}']))
    ∧ evalExpr [] (trimWs " ( ".data) = none
    ∧ computedPass [] ("\x7b\x7b=".data ++ " ( ".data ++ "\x7d\x7d".data ++ "ok".data)
        = "\x7b\x7b=".data ++ " ( ".data ++ "\x7d\x7d".data ++ computedPass [] "ok".data :=
  ⟨by decide, by decide, by decide,
    C4_failed_expression_preserved [] " ( ".data "ok".data
      (by decide) (by decide) (by decide)⟩

theorem mapGet_mapSet_self (k v : String) (m : List (String × String)) :
    mapGet (mapSet k v m) k = some v := by
  induction m with
  | nil => simp [mapSet, mapGet, List.find?]
  | cons p rest ih =>
    obtain ⟨k', v'⟩ := p
    by_cases hk : k' = k
    · subst hk
      simp [mapSet, mapGet, List.find?]
    · rw [mapSet, if_neg hk]
      rw [mapGet, List.find?]
      have : (k' == k) = false := by simp [hk]
      rw [this]
      exact ih

theorem mapGet_mapSet_ne {p k : String} (v : String)
    (m : List (String × String)) (h : p ≠ k) :
    mapGet (mapSet k v m) p = mapGet m p := by
  induction m with
  | nil =>
    have hb : (k == p) = false := beq_eq_false_iff_ne.mpr (Ne.symm h)
    simp [mapSet, mapGet, List.find?, hb]
  | cons q rest ih =>
    obtain ⟨k', v'⟩ := q
    by_cases hk : k' = k
    · subst hk
      have h1 : (k' == p) = false := beq_eq_false_iff_ne.mpr (Ne.symm h)
      simp [mapSet, mapGet, List.find?, h1]
    · rw [mapSet, if_neg hk]
      rw [mapGet, List.find?, mapGet, List.find?]
      cases hkp : (k' == p) with
      | true => rfl
      | false => exact ih

theorem mapGet_foldl_not_mem (b : String) :
    ∀ (ps : List String) (m : List (String × String)) (p : String), p ∉ ps →
      mapGet (ps.foldl (fun acc q => mapSet q b acc) m) p = mapGet m p := by
  intro ps
  induction ps with
  | nil => intro m p _; rfl
  | cons q ps ih =>
    intro m p hp
    have hpq : p ≠ q := fun hc => hp (hc ▸ List.mem_cons_self q ps)
    have hps : p ∉ ps := fun hc => hp (List.mem_cons_of_mem q hc)
    simp only [List.foldl_cons]
    rw [ih _ p hps, mapGet_mapSet_ne b m hpq]

theorem mapGet_foldl_mem (b : String) :
    ∀ (ps : List String) (m : List (String × String)) (p : String), p ∈ ps →
      mapGet (ps.foldl (fun acc q => mapSet q b acc) m) p = some b := by
  intro ps
  induction ps with
  | nil => intro m p hp; simp at hp
  | cons q ps ih =>
    intro m p hp
    simp only [List.foldl_cons]
    by_cases hmem : p ∈ ps
    · exact ih _ p hmem
    · have hpq : p = q := by
        cases List.mem_cons.mp hp with
        | inl h => exact h
        | inr h => exact absurd h hmem
      subst hpq
      rw [mapGet_foldl_not_mem b ps _ p hmem, mapGet_mapSet_self]

/-- C8.  The path-variant set of an asset display name is a fixed,
deterministic function of the name; when the name has an extension it
contains both the lower-cased-extension and upper-cased-extension
variants; registering an upload maps every variant to the same embedded
bytes; and consequently an asset named `diagram.PNG` resolves the
reference `![x](diagram.png)`. -/
theorem C8_path_variants (fn : String) (m₀ : List (String × String))
    (b64 : String) (hext : (extSplit fn.data).2 ≠ []) :
    (String.mk ((extSplit fn.data).1 ++ (extSplit fn.data).2.map Char.toLower)
        ∈ generatePathVariations fn
      ∧ String.mk ((extSplit fn.data).1 ++ (extSplit fn.data).2.map Char.toUpper)
        ∈ generatePathVariations fn)
    ∧ (∀ p ∈ generatePathVariations fn,
        mapGet (registerUpload m₀ fn b64) p = some b64)
    ∧ processMarkdownImages "![x](diagram.png)"
        (registerUpload [] "diagram.PNG" "DATAURL")
      = "![x](DATAURL)" := by
  refine ⟨⟨?_, ?_⟩, ?_, ?_⟩
  · simp [generatePathVariations, hext]
  · simp [generatePathVariations, hext]
  · intro p hp
    exact mapGet_foldl_mem b64 (generatePathVariations fn) m₀ p hp
  · decide

theorem C8_witness :
    ((extSplit "diagram.PNG".data).2 ≠ [])
    ∧ ((String.mk ((extSplit "diagram.PNG".data).1
          ++ (extSplit "diagram.PNG".data).2.map Char.toLower)
        ∈ generatePathVariations "diagram.PNG"
      ∧ String.mk ((extSplit "diagram.PNG".data).1
          ++ (extSplit "diagram.PNG".data).2.map Char.toUpper)
        ∈ generatePathVariations "diagram.PNG")
    ∧ (∀ p ∈ generatePathVariations "diagram.PNG",
        mapGet (registerUpload [] "diagram.PNG" "BYTES") p = some "BYTES")
    ∧ processMarkdownImages "![x](diagram.png)"
        (registerUpload [] "diagram.PNG" "DATAURL")
      = "![x](DATAURL)") :=
  ⟨by decide, C8_path_variants "diagram.PNG" [] "BYTES" (by decide)⟩

theorem takeWhile_append_of_all {p : Char → Bool} :
    ∀ (ds : List Char) (x : Char) (r : List Char),
      (∀ c ∈ ds, p c = true) → p x = false →
      (ds ++ x :: r).takeWhile p = ds := by
  intro ds
  induction ds with
  | nil => intro x r _ hx; simp [List.takeWhile, hx]
  | cons d ds ih =>
    intro x r h hx
    have hd := h d (List.mem_cons_self d ds)
    simp only [List.cons_append]
    rw [List.takeWhile_cons, if_pos hd,
      ih x r (fun c hc => h c (List.mem_cons_of_mem d hc)) hx]

theorem findLabelGo_exact :
    ∀ (lab acc : List Char),
      (∀ c ∈ lab, c ≠ ']' ∧ c ≠ '\n' ∧ c ≠ '\r') →
      findLabelGo (lab ++ [']']) acc = some (acc.reverse ++ lab, []) := by
  intro lab
  induction lab with
  | nil => intro acc _; simp [findLabelGo]
  | cons d lab ih =>
    intro acc h
    have hd := h d (List.mem_cons_self d lab)
    simp only [List.cons_append]
    rw [findLabelGo, if_neg hd.1, if_neg (by simp [hd.2.1, hd.2.2])]
    rw [ih (d :: acc) (fun c hc => h c (List.mem_cons_of_mem d hc))]
    simp

theorem findLabel_exact (lab : List Char) (hne : lab ≠ [])
    (h : ∀ c ∈ lab, c ≠ ']' ∧ c ≠ '\n' ∧ c ≠ '\r') :
    findLabel (lab ++ [']']) = some (lab, []) := by
  cases lab with
  | nil => exact absurd rfl hne
  | cons c lab =>
    have hc := h c (List.mem_cons_self c lab)
    simp only [List.cons_append]
    rw [findLabel, if_neg (by simp [hc.2.1, hc.2.2])]
    rw [findLabelGo_exact lab [c] (fun d hd => h d (List.mem_cons_of_mem c hd))]
    rfl

theorem scanProgressGo_nil (fuel pos : Nat) : scanProgressGo fuel pos [] = [] := by
  cases fuel <;> rfl

/-- C10.  The progress scanner accepts `[progress:v]` and
`[progress:v:label]` for any digit string `v` — including values above
100, with no range check at scan time — recording the parsed value
verbatim in the descriptor; the rendered progress element displays the
clamped value `min(100, max(0, v))`, so out-of-range values are clamped
at render time rather than rejected. -/
theorem C10_progress_clamped (ds lab : List Char) (hds : ds ≠ [])
    (hdig : ∀ c ∈ ds, c.isDigit = true)
    (hlne : lab ≠ [])
    (hlc : ∀ c ∈ lab, c ≠ ']' ∧ c ≠ '\n' ∧ c ≠ '\r') :
    scanProgress ("[progress:".data ++ ds ++ [']'])
      = [⟨"progress", 0, "[progress:".data ++ ds ++ [']'],
          digitsToNat ds, none⟩]
    ∧ scanProgress ("[progress:".data ++ ds ++ ':' :: (lab ++ [']']))
      = [⟨"progress", 0, "[progress:".data ++ ds ++ ':' :: (lab ++ [']']),
          digitsToNat ds, some lab⟩]
    ∧ clampedValue (digitsToNat ds) = min 100 (max 0 (digitsToNat ds)) := by
  refine ⟨?_, ?_, rfl⟩
  · have hpre : ("[progress:".data.isPrefixOf
        ('[' :: 'p' :: 'r' :: 'o' :: 'g' :: 'r' :: 'e' :: 's' :: 's' :: ':'
          :: (ds ++ [']']))) = true :=
      List.isPrefixOf_iff_prefix.mpr ⟨ds ++ [']'], rfl⟩
    show scanProgressGo
        (('[' :: 'p' :: 'r' :: 'o' :: 'g' :: 'r' :: 'e' :: 's' :: 's' :: ':'
          :: (ds ++ [']'])).length + 1) 0
        ('[' :: 'p' :: 'r' :: 'o' :: 'g' :: 'r' :: 'e' :: 's' :: 's' :: ':'
          :: (ds ++ [']'])) = _
    rw [scanProgressGo, if_pos hpre]
    simp only [List.drop_succ_cons, List.drop_zero]
    rw [takeWhile_append_of_all ds ']' [] hdig (by decide)]
    rw [if_neg hds]
    rw [List.drop_left ds (']' :: [])]
    simp only [if_pos rfl, scanProgressGo_nil]
    simp
  · have hpre : ("[progress:".data.isPrefixOf
        ('[' :: 'p' :: 'r' :: 'o' :: 'g' :: 'r' :: 'e' :: 's' :: 's' :: ':'
          :: (ds ++ ':' :: (lab ++ [']'])))) = true :=
      List.isPrefixOf_iff_prefix.mpr ⟨ds ++ ':' :: (lab ++ [']']), rfl⟩
    show scanProgressGo
        (('[' :: 'p' :: 'r' :: 'o' :: 'g' :: 'r' :: 'e' :: 's' :: 's' :: ':'
          :: (ds ++ ':' :: (lab ++ [']']))).length + 1) 0
        ('[' :: 'p' :: 'r' :: 'o' :: 'g' :: 'r' :: 'e' :: 's' :: 's' :: ':'
          :: (ds ++ ':' :: (lab ++ [']'])))
      = _
    rw [scanProgressGo, if_pos hpre]
    simp only [List.drop_succ_cons, List.drop_zero]
    rw [takeWhile_append_of_all ds ':' (lab ++ [']']) hdig (by decide)]
    rw [if_neg hds]
    rw [List.drop_left ds (':' :: (lab ++ [']']))]
    simp only [if_neg (by decide : ¬ (':' : Char) = ']'), if_pos rfl,
      findLabel_exact lab hlne hlc, scanProgressGo_nil]
    simp

theorem C10_witness :
    ("150".data : List Char) ≠ []
    ∧ (scanProgress ("[progress:".data ++ "150".data ++ [']'])
        = [⟨"progress", 0, "[progress:".data ++ "150".data ++ [']'],
            digitsToNat "150".data, none⟩]
      ∧ scanProgress ("[progress:".data ++ "150".data ++ ':' :: ("Hi".data ++ [']']))
        = [⟨"progress", 0,
            "[progress:".data ++ "150".data ++ ':' :: ("Hi".data ++ [']']),
            digitsToNat "150".data, some "Hi".data⟩]
      ∧ clampedValue (digitsToNat "150".data)
        = min 100 (max 0 (digitsToNat "150".data)))
    ∧ clampedValue (digitsToNat "150".data) = 100 :=
  ⟨by decide,
    C10_progress_clamped "150".data "Hi".data (by decide) (by decide)
      (by decide) (by decide),
    by decide⟩

/-- A text with no `{{...}}` decomposition contains no occurrence of
any pattern of the shape `{{mid}}`. -/
theorem no_marker_no_pat {s : List Char}
    (H : ∀ a b c : List Char, s ≠ a ++ "\x7b\x7b".data ++ b ++ "\x7d\x7d".data ++ c)
    (mid : List Char) : ¬ ("\x7b\x7b".data ++ mid ++ "\x7d\x7d".data) <:+: s := by
  rintro ⟨x, y, hxy⟩
  exact H x mid y (by rw [← hxy]; simp [List.append_assoc])

theorem noMarker_tail {ch : Char} {cs : List Char}
    (H : ∀ a b c : List Char, (ch :: cs) ≠ a ++ "\x7b\x7b".data ++ b ++ "\x7d\x7d".data ++ c) :
    ∀ a b c : List Char, cs ≠ a ++ "\x7b\x7b".data ++ b ++ "\x7d\x7d".data ++ c := by
  intro a b c hc
  exact H (ch :: a) b c (by rw [hc]; rfl)

theorem noMarker_of_no_brace {s : List Char} (h : '{' ∉ s) :
    ∀ a b c : List Char, s ≠ a ++ "\x7b\x7b".data ++ b ++ "\x7d\x7d".data ++ c := by
  intro a b c hc
  apply h
  rw [hc]
  simp

theorem foldl_fixed {α : Type} (f : List Char → α → List Char) (l : List α)
    (s : List Char) (h : ∀ x, f s x = s) : l.foldl f s = s := by
  induction l with
  | nil => rfl
  | cons a l ih => rw [List.foldl_cons, h a, ih]

/-- The computed pass copies a text with no `{{...}}` decomposition
through unchanged, at every fuel. -/
theorem scanComputedGo_id (vars : List Variable) :
    ∀ (s : List Char),
      (∀ a b c : List Char, s ≠ a ++ "\x7b\x7b".data ++ b ++ "\x7d\x7d".data ++ c) →
      ∀ fuel, scanComputedGo vars fuel s = s := by
  intro s
  induction s with
  | nil => intro _ fuel; cases fuel <;> rfl
  | cons ch cs ih =>
    intro H fuel
    cases fuel with
    | zero => rfl
    | succ fuel =>
      rw [scanComputedGo]
      by_cases hpre : ("\x7b\x7b=".data.isPrefixOf (ch :: cs)) = true
      · rw [if_pos hpre]
        cases hfc : findValidClose (cs.length + 1) ((ch :: cs).drop 3) with
        | none =>
          show ch :: scanComputedGo vars fuel cs = ch :: cs
          exact congrArg (fun t => ch :: t) (ih (noMarker_tail H) fuel)
        | some p =>
          obtain ⟨raw, rest⟩ := p
          exfalso
          obtain ⟨t, ht⟩ := List.isPrefixOf_iff_prefix.mp hpre
          have htd : t = (ch :: cs).drop 3 := by
            rw [← ht]
            exact (List.drop_left "\x7b\x7b=".data t).symm
          have hx := findValidClose_spec _ hfc
          apply H [] ('=' :: raw) rest
          show ch :: cs = "\x7b\x7b".data ++ ('=' :: raw) ++ "\x7d\x7d".data ++ rest

          rw [← ht, htd, hx]
          rfl
      · rw [if_neg hpre]
        exact congrArg (fun t => ch :: t) (ih (noMarker_tail H) fuel)

/-- C9.  Re-expanding a text that contains no remaining `{{...}}`
markers (no decomposition `a ++ "{{" ++ b ++ "}}" ++ c`) with any
variable set is a no-op: every pattern any of the five passes looks for
contains a `{{...}}`-shaped span, so none can match. -/
theorem C9_idempotent_on_fully_substituted (text : String)
    (vars : List Variable)
    (H : ∀ a b c : List Char, text.data ≠ a ++ "\x7b\x7b".data ++ b ++ "\x7d\x7d".data ++ c) :
    processTemplate text vars = text := by
  have h1 : substitutionPass vars text.data = text.data := by
    apply foldl_fixed
    intro v
    apply replaceAll_id
    intro hc
    refine no_marker_no_pat H v.name.data ?_
    have he : ("\x7b\x7b" ++ v.name ++ "\x7d\x7d").data
        = "\x7b\x7b".data ++ v.name.data ++ "\x7d\x7d".data := by
      simp [List.append_assoc]
    rwa [he] at hc
  have h2 : listPass vars text.data = text.data := by
    apply foldl_fixed
    intro v
    cases hp : parseJsonRecords v.value with
    | none => rfl
    | some records =>
      apply replaceBlocks_id
      intro hc
      refine no_marker_no_pat H ('#' :: v.name.data) ?_
      have he : ("\x7b\x7b#" ++ v.name ++ "\x7d\x7d").data
          = "\x7b\x7b".data ++ ('#' :: v.name.data) ++ "\x7d\x7d".data := by
        simp [List.append_assoc]
      rwa [he] at hc
  have h3 : conditionalPass vars text.data = text.data := by
    apply foldl_fixed
    intro v
    apply replaceBlocks_id
    intro hc
    refine no_marker_no_pat H ("#if ".data ++ v.name.data) ?_
    have he : ("\x7b\x7b#if " ++ v.name ++ "\x7d\x7d").data
        = "\x7b\x7b".data ++ ("#if ".data ++ v.name.data) ++ "\x7d\x7d".data := by
      simp [List.append_assoc]
    rwa [he] at hc
  have h4 : inverseConditionalPass vars text.data = text.data := by
    apply foldl_fixed
    intro v
    apply replaceBlocks_id
    intro hc
    refine no_marker_no_pat H ("#unless ".data ++ v.name.data) ?_
    have he : ("\x7b\x7b#unless " ++ v.name ++ "\x7d\x7d").data
        = "\x7b\x7b".data ++ ("#unless ".data ++ v.name.data) ++ "\x7d\x7d".data := by
      simp [List.append_assoc]
    rwa [he] at hc
  have h5 : computedPass vars text.data = text.data :=
    scanComputedGo_id vars text.data H _
  show String.mk (computedPass vars (inverseConditionalPass vars
    (conditionalPass vars (listPass vars (substitutionPass vars text.data)))))
    = text
  rw [h1, h2, h3, h4, h5]

theorem C9_witness :
    processTemplate "Hello Paris! No markers here."
      [⟨"city", "Paris", VarType.text⟩] = "Hello Paris! No markers here." :=
  C9_idempotent_on_fully_substituted "Hello Paris! No markers here."
    [⟨"city", "Paris", VarType.text⟩]
    (noMarker_of_no_brace (by decide))

/-- C6 counterexample.  An unknown-keyword chart block yields no chart
descriptor, but its fenced text does *not* always pass through the
scan-and-rewrite stage unchanged: another kind's syntax inside the
block (here a progress marker) is detected independently and rewritten
to a placeholder inside the block. -/
theorem C6_counterexample :
    scanChart "```chart\nfoo\n[progress:50]\n```".data = []
    ∧ transformMarkdown "```chart\nfoo\n[progress:50]\n```"
        ≠ "```chart\nfoo\n[progress:50]\n```" := by
  constructor
  · decide
  · decide
